import Mathlib

set_option linter.unusedVariables false

namespace Backlist

/-! Shallow embedding of `src/analyzer.js` (the frontend call-graph analyzer of
the backlist-npm repository).  JavaScript strings are modelled as Lean `String`
values and every string operation of the source is rendered as an explicit scan
over `String.data`; the Babel AST fragment inspected by the analyzer is
modelled by the inductive `Expr` below.  All definitions are structural
recursions, so every function evaluates inside the kernel. -/

/-- The JS regex character class `\w`, i.e. `[A-Za-z0-9_]`. -/
def isWordChar (c : Char) : Bool := c.isAlphanum || c == '_'

/-- The ASCII case-mapping table of `String.prototype.toUpperCase` (lowercase
letter paired with its uppercase image); the analyzer only ever meets ASCII
method names and URLs, so the embedding maps the 26 lowercase letters and
leaves every other character unchanged. -/
def upperPairs : List (Char × Char) :=
  [('a', 'A'), ('b', 'B'), ('c', 'C'), ('d', 'D'), ('e', 'E'), ('f', 'F'),
   ('g', 'G'), ('h', 'H'), ('i', 'I'), ('j', 'J'), ('k', 'K'), ('l', 'L'),
   ('m', 'M'), ('n', 'N'), ('o', 'O'), ('p', 'P'), ('q', 'Q'), ('r', 'R'),
   ('s', 'S'), ('t', 'T'), ('u', 'U'), ('v', 'V'), ('w', 'W'), ('x', 'X'),
   ('y', 'Y'), ('z', 'Z')]

/-- ASCII case mapping used by `String.prototype.toUpperCase`. -/
def jsCharUpper (c : Char) : Char :=
  ((upperPairs.find? fun p => p.1 == c).map Prod.snd).getD c

/-- ASCII case mapping used by `String.prototype.toLowerCase` (the transposed
table). -/
def jsCharLower (c : Char) : Char :=
  ((upperPairs.find? fun p => p.2 == c).map Prod.fst).getD c

/-- JS `s.toUpperCase()`. -/
def jsToUpper (s : String) : String := ⟨s.data.map jsCharUpper⟩

/-- JS `s.toLowerCase()`. -/
def jsToLower (s : String) : String := ⟨s.data.map jsCharLower⟩

/-- JS `p.indexOf(c)` followed by `p.slice(index + 1)`: the characters after
the first occurrence of `c`, or `none` when `c` does not occur. -/
def afterChar (c : Char) : List Char → Option (List Char)
  | [] => none
  | x :: xs => if x = c then some xs else afterChar c xs

/-- JS `String.prototype.split` against a single-character test: splitting an
empty list yields `[[]]`, exactly as `''.split(sep)` yields `['']`. -/
def splitOnPred (p : Char → Bool) : List Char → List (List Char)
  | [] => [[]]
  | c :: rest =>
    if p c then [] :: splitOnPred p rest
    else
      match splitOnPred p rest with
      | [] => [[c]]
      | y :: ys => (c :: y) :: ys

/-- `normalizeSlashes` of the source: `String(p).replace(/\\/g, '/')`. -/
def normalizeSlashes (p : String) : String :=
  ⟨p.data.map fun c => if c = '\\' then '/' else c⟩

/-- The five characters of the literal `'/api/'`. -/
def apiChars : List Char := ['/', 'a', 'p', 'i', '/']

/-- The suffix of `l` starting at the first occurrence of `/api/`, i.e. JS
`l.indexOf('/api/')` followed by `l.slice(idx)`. -/
def apiSuffix : List Char → Option (List Char)
  | [] => none
  | c :: rest =>
    if apiChars.isPrefixOf (c :: rest) then some (c :: rest)
    else apiSuffix rest

/-- `extractApiPath` of the source.  `urlValue` is `Option String` because the
call sites may pass the `null` produced by `getUrlValue`; the `!urlValue`
guard of the source also rejects the falsy empty string. -/
def extractApiPath (urlValue : Option String) : Option String :=
  match urlValue with
  | none => none
  | some s => if s = "" then none else (apiSuffix s.data).map fun l => (⟨l⟩ : String)

/-- One pass of `route.replace(/\{(\w+)\}/g, ':$1')`
(`normalizeRouteForBackend` of the source).  The state holds the word
characters consumed since the last still-open `{`; because `\w`, `{` and `}`
are disjoint character classes this scan performs exactly the left-to-right
non-overlapping replacement of the JS regex. -/
def normRouteAux : Option (List Char) → List Char → List Char
  | none, [] => []
  | some ws, [] => '{' :: ws
  | none, c :: rest =>
    if c = '{' then normRouteAux (some []) rest
    else c :: normRouteAux none rest
  | some ws, c :: rest =>
    if isWordChar c then normRouteAux (some (ws ++ [c])) rest
    else if c = '}' && !ws.isEmpty then (':' :: ws) ++ normRouteAux none rest
    else if c = '{' then ('{' :: ws) ++ normRouteAux (some []) rest
    else ('{' :: ws) ++ (c :: normRouteAux none rest)

/-- `normalizeRouteForBackend` of the source: `/api/users/{id}` becomes
`/api/users/:id`. -/
def normalizeRouteForBackend (urlValue : String) : String :=
  ⟨normRouteAux none urlValue.data⟩

/-- The global scan of the regex `[:{]([a-zA-Z0-9_]+)[}]` used by
`extractPathParams`.  The state is `none` outside a candidate match and
`some ws` when a `[:{]` character has been seen and `ws` are the word
characters read since; a match is emitted only when a closing `}` follows a
non-empty word run, exactly as `re.exec` does. -/
def pathParamScan (state : Option (List Char)) : List Char → List (List Char)
  | [] => []
  | c :: rest =>
    match state with
    | none =>
      if c = ':' || c = '{' then pathParamScan (some []) rest
      else pathParamScan none rest
    | some ws =>
      if isWordChar c then pathParamScan (some (ws ++ [c])) rest
      else if c = '}' && !ws.isEmpty then ws :: pathParamScan none rest
      else if c = ':' || c = '{' then pathParamScan (some []) rest
      else pathParamScan none rest

/-- JS `Array.from(new Set(xs))`: de-duplication keeping the first occurrence
of each element, in order. -/
def dedupFirstAux (seen : List String) : List String → List String
  | [] => []
  | x :: xs =>
    if seen.contains x then dedupFirstAux seen xs
    else x :: dedupFirstAux (seen ++ [x]) xs

/-- De-duplication keeping first occurrences (insertion order of a JS `Set`). -/
def dedupFirst (l : List String) : List String := dedupFirstAux [] l

/-- `extractPathParams` of the source: all captures of
`[:{]([a-zA-Z0-9_]+)[}]` over the route, de-duplicated. -/
def extractPathParams (route : String) : List String :=
  dedupFirst ((pathParamScan none route.data).map fun l => (⟨l⟩ : String))

/-- `extractQueryParamsFromUrl` of the source: the text after the first `?`,
split on `&`, each piece truncated at its first `=`, empty pieces dropped
(`filter(Boolean)`). -/
def extractQueryParamsFromUrl (urlValue : String) : List String :=
  match afterChar '?' urlValue.data with
  | none => []
  | some qs =>
    (((splitOnPred (· == '&') qs).map fun piece =>
        (⟨piece.takeWhile (· ≠ '=')⟩ : String)).filter (· ≠ ""))

/-- Decomposition of a run of `[-_]` characters at its last underscore:
`r = a ++ '_' :: b` with no underscore in `b`, when such a split with the
underscore at index at least 1 exists (checked by the caller via `a ≠ []`). -/
def splitLastUnderscore (r : List Char) : Option (List Char × List Char) :=
  let rev := r.reverse
  let bRev := rev.takeWhile (· ≠ '_')
  match rev.drop bRev.length with
  | '_' :: aRev => some (aRev.reverse, bRev.reverse)
  | _ => none

/-- Behaviour of the regex `[-_]+(\w)` inside a pure `[-_]` run `r` that is
followed by a non-word character or the end of input.  Because `_` itself is a
word character, backtracking lets the regex capture the last underscore of the
run provided at least one `[-_]` character precedes it; the match is replaced
by the capture upper-cased, i.e. by `_`. -/
def flushRun (r : List Char) : List Char :=
  match splitLastUnderscore r with
  | some (a, b) => if a.isEmpty then r else '_' :: b
  | none => r

/-- The scan of `str.replace(/[-_]+(\w)/g, (_, c) => c.toUpperCase())`:
`pending` is the current run of `[-_]` characters.  A run followed by an
alphanumeric character is consumed and replaced by that character
upper-cased; a run followed by anything else falls back to the backtracking
behaviour of `flushRun`. -/
def hyphenReplaceAux (pending : List Char) : List Char → List Char
  | [] => flushRun pending
  | c :: rest =>
    if c = '-' || c = '_' then hyphenReplaceAux (pending ++ [c]) rest
    else if pending.isEmpty then c :: hyphenReplaceAux [] rest
    else if isWordChar c then jsCharUpper c :: hyphenReplaceAux [] rest
    else flushRun pending ++ (c :: hyphenReplaceAux [] rest)

/-- `str.replace(/^\w/, (c) => c.toUpperCase())`. -/
def upperFirst : List Char → List Char
  | [] => []
  | c :: rest => if isWordChar c then jsCharUpper c :: rest else c :: rest

/-- `toTitleCase` of the source; the final step is
`replace(/[^a-zA-Z0-9]/g, '')`. -/
def toTitleCase (str : String) : String :=
  if str = "" then "Default"
  else ⟨(upperFirst (hyphenReplaceAux [] str.data)).filter Char.isAlphanum⟩

/-- The JS test `/^v\d+$/i.test(seg)`. -/
def isVersionSeg (s : String) : Bool :=
  match s.data with
  | c :: rest => (c == 'v' || c == 'V') && !rest.isEmpty && rest.all Char.isDigit
  | [] => false

/-- `deriveControllerNameFromUrl` of the source: the path segment after the
`api` segment, skipping a version segment, title-cased; `Default` when no
segment is found. -/
def deriveControllerNameFromUrl (urlValue : String) : String :=
  let apiPath := (extractApiPath (some urlValue)).getD urlValue
  let parts := ((splitOnPred (· == '/') apiPath.data).filter (· ≠ [])).map
    fun l => (⟨l⟩ : String)
  let seg : Option String :=
    match parts.findIdx? (· = "api") with
    | some apiIndex =>
      match parts.get? (apiIndex + 1) with
      | some sg =>
        if isVersionSeg sg then some ((parts.get? (apiIndex + 2)).getD sg) else some sg
      | none => none
    | none => parts.get? 0
  toTitleCase (seg.getD "")

/-- `route.replace(/^\/api\//, '/')`. -/
def stripApiRoot (l : List Char) : List Char :=
  if apiChars.isPrefixOf l then '/' :: l.drop 5 else l

/-- `deriveActionName` of the source: strip a leading `/api/`, turn the
characters of the class `[/:{}-]` into spaces, take the last whitespace
delimited token (fallback `Action`), title-case it and put the lower-cased
method in front. -/
def deriveActionName (method route : String) : String :=
  let cleaned := (stripApiRoot route.data).map fun c =>
    if c = '/' || c = ':' || c = '{' || c = '}' || c = '-' then ' ' else c
  let tokens := (splitOnPred Char.isWhitespace cleaned).filter (· ≠ [])
  let last : String := match tokens.getLast? with
    | some t => ⟨t⟩
    | none => "Action"
  jsToLower method ++ toTitleCase last

/-! The Babel AST fragment inspected by the analyzer. -/

/-- Keys of object properties: `Identifier` keys, `StringLiteral` keys, or
anything else (computed or numeric keys, which the analyzer skips). -/
inductive PropKey where
  | ident (name : String)
  | strLit (value : String)
  | otherKey

mutual
/-- The expression shapes `analyzeFrontend` distinguishes; `otherExpr` stands
for every other Babel node kind. -/
inductive Expr where
  | stringLit (value : String)
  | numericLit
  | booleanLit
  | nullLit
  | identifier (name : String)
  | templateLit (quasis : List String) (exprs : List Expr)
  | objectExpr (props : List ObjProp)
  | callExpr (callee : Expr) (args : List Expr)
  | memberExpr (obj : Expr) (prop : Expr)
  | otherExpr

/-- Members of an object literal: `ObjectProperty` nodes and everything else
(spread elements, methods), which the analyzer skips. -/
inductive ObjProp where
  | objectProperty (key : PropKey) (value : Expr)
  | otherProp
end

/-- A variable binding target: a `VariableDeclarator` with its optional
initializer, or any other kind of declaration (function parameter, import,
and so on). -/
inductive Decl where
  | variableDeclarator (init : Option Expr)
  | otherDecl

/-- One lexical scope: the names declared in it. -/
abbrev Scope := List (String × Decl)

/-- A call expression as the traversal visitor sees it: its callee, its
positional arguments, and the enclosing scope chain, innermost scope first
(what `callPath.scope.getBinding` walks). -/
structure CallSite where
  callee : Expr
  args : List Expr
  scopes : List Scope

/-- Babel's `scope.getBinding(name)`: the nearest enclosing declaration of
`name`. -/
def getBinding (scopes : List Scope) (name : String) : Option Decl :=
  match scopes with
  | [] => none
  | s :: rest =>
    match s.find? fun p => p.1 = name with
    | some p => some p.2
    | none => getBinding rest name

/-- `resolveIdentifierToInit` of the source: the initializer of the nearest
`VariableDeclarator` binding `identifierName`, `none` for any other outcome. -/
def resolveIdentifierToInit (scopes : List Scope) (identifierName : String) : Option Expr :=
  match getBinding scopes identifierName with
  | some (.variableDeclarator init) => init
  | _ => none

/-- The replacement text for the embedded expression at index `i` of a
template literal: `{name}` for a bare identifier, `{param(i+1)}` otherwise,
nothing when there is no expression at index `i`. -/
def templatePiece (exprs : List Expr) (i : Nat) : String :=
  match exprs.get? i with
  | some (.identifier name) => "\x7b" ++ name ++ "\x7d"
  | some _ => "\x7bparam" ++ toString (i + 1) ++ "\x7d"
  | none => ""

/-- The concatenation loop of `getUrlValue` over the quasis of a template
literal. -/
def templateConcat (exprs : List Expr) : List String → Nat → String
  | [], _ => ""
  | q :: qs, i => q ++ templatePiece exprs i ++ templateConcat exprs qs (i + 1)

/-- `getUrlValue` of the source: a string literal verbatim, a template literal
reconstructed with `{name}`/`{paramK}` placeholders, `null` otherwise. -/
def getUrlValue : Expr → Option String
  | .stringLit v => some v
  | .templateLit quasis exprs => some (templateConcat exprs quasis 0)
  | _ => none

/-- `getUrlValue(node.arguments[0])` where the argument may be absent. -/
def getUrlValueOpt : Option Expr → Option String
  | some e => getUrlValue e
  | none => none

/-- `HTTP_METHODS` of the source. -/
def HTTP_METHODS : List String := ["get", "post", "put", "patch", "delete"]

/-- `detectAxiosLikeMethod` of the source: a member-expression callee whose
property is an identifier naming one of the five HTTP verbs
(case-insensitive); the verb is returned upper-cased. -/
def detectAxiosLikeMethod (callee : Expr) : Option String :=
  match callee with
  | .memberExpr _ (.identifier propName) =>
    let name := jsToLower propName
    if HTTP_METHODS.contains name then some (jsToUpper name) else none
  | _ => none

/-- `inferTypeFromNode` of the source. -/
def inferTypeFromNode : Expr → String
  | .stringLit _ => "String"
  | .numericLit => "Number"
  | .booleanLit => "Boolean"
  | .nullLit => "String"
  | _ => "String"

/-- Schema fields: the ordered name-to-type record built by
`extractObjectSchema`. -/
abbrev Schema := List (String × String)

/-- Assignment `schemaFields[key] = t` on a JS object: an existing key keeps
its position and gets the new value, a new key is appended. -/
def schemaSet (key t : String) (fields : Schema) : Schema :=
  if fields.any fun p => p.1 = key then
    fields.map fun p => if p.1 = key then (key, t) else p
  else fields ++ [(key, t)]

/-- The key of an `ObjectProperty` the way the source reads it: an identifier
name or a string-literal value, `none` otherwise. -/
def propKeyName : PropKey → Option String
  | .ident name => some name
  | .strLit value => some value
  | .otherKey => none

/-- The property loop of `extractObjectSchema`. -/
def schemaOfProps (props : List ObjProp) : Schema :=
  props.foldl
    (fun acc p =>
      match p with
      | .objectProperty key value =>
        match propKeyName key with
        | some k => schemaSet k (inferTypeFromNode value) acc
        | none => acc
      | .otherProp => acc)
    []

/-- `extractObjectSchema` of the source: `none` unless the expression is an
object literal. -/
def extractObjectSchema : Expr → Option Schema
  | .objectExpr props => some (schemaOfProps props)
  | _ => none

/-- `isJSONStringifyCall` of the source. -/
def isJSONStringifyCall : Expr → Bool
  | .callExpr (.memberExpr (.identifier obj) (.identifier prop)) _ =>
    obj == "JSON" && prop == "stringify"
  | _ => false

/-- `v.arguments[0]` of a call expression. -/
def jsonStringifyArg : Expr → Option Expr
  | .callExpr _ args => args.get? 0
  | _ => none

/-- The read of a resolved initializer: only an object-literal initializer
yields a schema (`init?.type === 'ObjectExpression'`). -/
def schemaFromInit : Option Expr → Option Schema
  | some init =>
    match init with
    | .objectExpr _ => extractObjectSchema init
    | _ => none
  | none => none

/-- The shared payload shape check of both conventions: an inline object
literal is read directly, a bare identifier is resolved one hop through the
scope chain and its initializer is read only when it is an object literal. -/
def schemaFromPayload (scopes : List Scope) (arg : Expr) : Option Schema :=
  match arg with
  | .objectExpr _ => extractObjectSchema arg
  | .identifier n => schemaFromInit (resolveIdentifierToInit scopes n)
  | _ => none

/-- `properties.find` against an `ObjectProperty` with an `Identifier` key of
the given name; yields the value of the first such property. -/
def findObjProp (name : String) : List ObjProp → Option Expr
  | [] => none
  | .objectProperty (.ident k) v :: rest =>
    if k = name then some v else findObjProp name rest
  | _ :: rest => findObjProp name rest

/-- The value of the `method` property of the options record: the method is
`GET` unless a `method` property carries a string-literal value, which is used
upper-cased. -/
def methodFromProp : Option Expr → String
  | some (.stringLit v) => jsToUpper v
  | _ => "GET"

/-- The method computation of the `fetch(url, options)` branch over the
optional second argument. -/
def methodFromOptions : Option Expr → String
  | some (.objectExpr props) => methodFromProp (findObjProp "method" props)
  | _ => "GET"

/-- The method of a `fetch(url, options)` call site. -/
def fetchMethod (args : List Expr) : String := methodFromOptions (args.get? 1)

/-- The read of the `JSON.stringify` call's first argument (`v.arguments[0]`
may be absent). -/
def schemaFromStringifyArg (scopes : List Scope) : Option Expr → Option Schema
  | some a => schemaFromPayload scopes a
  | none => none

/-- The handling of the `body` property value: it must be a
`JSON.stringify(...)` call, whose first argument is the payload. -/
def schemaFromBodyProp (scopes : List Scope) : Option Expr → Option Schema
  | some v =>
    if isJSONStringifyCall v then schemaFromStringifyArg scopes (jsonStringifyArg v)
    else none
  | none => none

/-- The body extraction of the `fetch` branch over the optional options
record: only for POST/PUT/PATCH, only from a `body` property. -/
def fetchSchemaFromOptions (scopes : List Scope) (o : Option Expr) (method : String) :
    Option Schema :=
  match o with
  | some (.objectExpr props) =>
    if ["POST", "PUT", "PATCH"].contains method then
      schemaFromBodyProp scopes (findObjProp "body" props)
    else none
  | _ => none

/-- The body extraction of a `fetch(url, options)` call site. -/
def fetchSchema (scopes : List Scope) (args : List Expr) (method : String) : Option Schema :=
  fetchSchemaFromOptions scopes (args.get? 1) method

/-- The body extraction of the axios-like branch: only for POST/PUT/PATCH,
from the second positional argument. -/
def axiosSchema (scopes : List Scope) (args : List Expr) (m : String) : Option Schema :=
  if ["POST", "PUT", "PATCH"].contains m then
    match args.get? 1 with
    | some a => schemaFromPayload scopes a
    | none => none
  else none

/-- The `requestBody` wrapper `{ fields: schemaFields }` of the source. -/
structure RequestBody where
  fields : Schema
deriving DecidableEq, Repr

/-- The EndpointDescriptor record the analyzer emits (`path` is the `rawPath`
of the specification). -/
structure Endpoint where
  path : String
  route : String
  method : String
  controllerName : String
  actionName : String
  pathParams : List String
  queryParams : List String
  schemaFields : Option Schema
  requestBody : Option RequestBody
  sourceFile : String
deriving DecidableEq, Repr

/-- The tail of the visitor after URL admission: build the full descriptor, or
drop the call site when the resolved URL has no `/api/` segment. -/
def buildEndpoint (file : String) (urlValue : Option String) (method : String)
    (schemaFields : Option Schema) : Option Endpoint :=
  match extractApiPath urlValue with
  | none => none
  | some apiPath =>
    let route := normalizeRouteForBackend ⟨apiPath.data.takeWhile (· ≠ '?')⟩
    some {
      path := apiPath
      route := route
      method := method
      controllerName := deriveControllerNameFromUrl apiPath
      actionName := deriveActionName method route
      pathParams := extractPathParams route
      queryParams := extractQueryParamsFromUrl apiPath
      schemaFields := schemaFields
      requestBody := schemaFields.map RequestBody.mk
      sourceFile := normalizeSlashes file }

/-- The `CallExpression` visitor of `analyzeFrontend` applied to one call
site.  The `fetch` and axios-like branches of the source are mutually
exclusive because the callee cannot be both a bare identifier and a member
expression. -/
def processCallExpression (node : CallSite) (file : String) : Option Endpoint :=
  match detectAxiosLikeMethod node.callee with
  | some m =>
    buildEndpoint file (getUrlValueOpt (node.args.get? 0)) m
      (axiosSchema node.scopes node.args m)
  | none =>
    match node.callee with
    | .identifier n =>
      if n == "fetch" then
        buildEndpoint file (getUrlValueOpt (node.args.get? 0)) (fetchMethod node.args)
          (fetchSchema node.scopes node.args (fetchMethod node.args))
      else none
    | _ => none

/-- One discovered source file: its path and the call sites of its syntax
tree in traversal order, or `none` when `fs.readFile` or `parser.parse`
throws (both catch blocks make the file contribute nothing). -/
structure SourceFile where
  name : String
  parse : Option (List CallSite)

/-- The read-only world `analyzeFrontend` sees: whether the root directory
exists, and the files `glob` enumerates under it, in traversal order. -/
structure FileSystem where
  rootExists : Bool
  files : List SourceFile

/-- The endpoints one file contributes, in call-site order; a file that fails
to read or parse contributes nothing. -/
def fileEndpoints (f : SourceFile) : List Endpoint :=
  match f.parse with
  | none => []
  | some sites => sites.filterMap fun s => processCallExpression s f.name

/-- The `Map` key of the source: `` `${method}:${route}` ``. -/
def endpointKey (e : Endpoint) : String := e.method ++ ":" ++ e.route

/-- `endpoints.has(key)` on the modelled insertion-ordered map. -/
def hasKey (m : List (String × Endpoint)) (k : String) : Bool :=
  m.any fun p => p.1 == k

/-- The first-wins insertion into the keyed `Map`, which preserves insertion
order. -/
def insertEndpoint (m : List (String × Endpoint)) (e : Endpoint) :
    List (String × Endpoint) :=
  if hasKey m (endpointKey e) then m
  else m ++ [(endpointKey e, e)]

/-- `Array.from(endpoints.values())` after folding every observation into the
keyed map. -/
def aggregate (es : List Endpoint) : List Endpoint :=
  (es.foldl insertEndpoint []).map Prod.snd

/-- The error conditions `analyzeFrontend` throws. -/
inductive AnalyzeError where
  | srcPathRequired
  | directoryNotFound (path : String)
deriving DecidableEq, Repr

instance : DecidableEq (Except AnalyzeError (List Endpoint)) := fun a b =>
  match a, b with
  | .ok x, .ok y =>
    if h : x = y then isTrue (by rw [h])
    else isFalse fun hc => h (by cases hc; rfl)
  | .error x, .error y =>
    if h : x = y then isTrue (by rw [h])
    else isFalse fun hc => h (by cases hc; rfl)
  | .ok x, .error y => isFalse fun hc => Except.noConfusion hc
  | .error x, .ok y => isFalse fun hc => Except.noConfusion hc

/-- `analyzeFrontend` of the source over the modelled file system: fail when
the path is missing or the root directory does not exist, otherwise fold every
file's observations into the first-wins keyed map and return its values. -/
def analyzeFrontend (srcPath : String) (fsys : FileSystem) :
    Except AnalyzeError (List Endpoint) :=
  if srcPath = "" then .error .srcPathRequired
  else if !fsys.rootExists then .error (.directoryNotFound srcPath)
  else .ok (aggregate (fsys.files.flatMap fileEndpoints))

/-! Specification-side definitions: independent characterizations the
theorems compare the analyzer against. -/

/-- Substring containment: `pat` occurs contiguously inside `l`. -/
def containsSeq (pat l : List Char) : Prop := ∃ l1 l2, l = l1 ++ pat ++ l2

/-- Executable substring test (JS `indexOf(...) !== -1`). -/
def containsSub (pat : List Char) : List Char → Bool
  | [] => pat.isPrefixOf []
  | c :: rest => pat.isPrefixOf (c :: rest) || containsSub pat rest

/-- Whether a resolved URL (when there is one) contains the substring
`/api/`; `containsSub_iff` below ties the executable test to the plain
substring statement. -/
def urlHasApi : Option String → Bool
  | some u => containsSub apiChars u.data
  | none => false

/-- Whether an optional URL argument is one of the two literal shapes
`getUrlValue` reads. -/
def isLiteralUrlArg : Option Expr → Bool
  | some (.stringLit _) => true
  | some (.templateLit _ _) => true
  | _ => false

/-- The one-hop payload resolution the specification describes: consult the
scope chain once, read the initializer only when the binding is a variable
declarator whose initializer is itself an object literal, and never chase a
further identifier. -/
def oneHopSchema (scopes : List Scope) (n : String) : Option Schema :=
  match getBinding scopes n with
  | some (.variableDeclarator (some (.objectExpr props))) => some (schemaOfProps props)
  | _ => none

/-- Spec-side description of the query-key extraction (amended: duplicates
are retained): keys of the `?k=v&...` suffix in order of appearance, empty
keys dropped. -/
def querySpecKeys (raw : String) : List String :=
  match afterChar '?' raw.data with
  | none => []
  | some suffixChars =>
    ((splitOnPred (· == '&') suffixChars).map fun piece =>
      (⟨piece.takeWhile (· ≠ '=')⟩ : String)).filter (· ≠ "")

/-- Spec-side first-wins de-duplication keyed by the `method:route` string:
each element keeps its position and erases every later element with the same
key. -/
def firstWinsByKey (l : List Endpoint) : List Endpoint :=
  l.foldr (fun e acc => e :: acc.filter fun x => !(endpointKey x == endpointKey e)) []

/-- Boolean test for two descriptors naming the same `(method, route)` pair. -/
def samePair (a b : Endpoint) : Bool := a.method == b.method && a.route == b.route

/-- Spec-side first-wins de-duplication keyed by the `(method, route)` pair
itself, as the claim states it. -/
def firstWinsByPair (l : List Endpoint) : List Endpoint :=
  l.foldr (fun e acc => e :: acc.filter fun x => !samePair x e) []

/-! Concrete inputs used by the claim witnesses and counterexamples. -/

/-- Concrete run for C2: two files, the later duplicate of `GET /api/a` is
discarded and the first observation (the one carrying the query string) is
kept, in traversal order. -/
def fsC2 : FileSystem :=
  ⟨true,
   [⟨"a.js", some [⟨.identifier "fetch", [.stringLit "/api/a?x=1"], []⟩,
                   ⟨.identifier "fetch", [.stringLit "/api/b"], []⟩]⟩,
    ⟨"b.js", some [⟨.identifier "fetch", [.stringLit "/api/a"], []⟩]⟩]⟩

/-- Concrete call site for C3: a literal asset URL. -/
def csC3 : CallSite := ⟨.identifier "fetch", [.stringLit "/assets/logo.png"], []⟩

/-- Concrete file systems for C8: the root is missing in both, with different
file lists. -/
def fsC8 : FileSystem :=
  ⟨false, [⟨"a.js", some [⟨.identifier "fetch", [.stringLit "/api/a"], []⟩]⟩]⟩

/-- Second concrete file system for C8 with no files at all. -/
def fsC8' : FileSystem := ⟨false, []⟩

/-- Concrete call site for C9: the URL is an identifier that even resolves to
a perfectly good literal in scope; the analyzer still drops the call. -/
def csC9 : CallSite :=
  ⟨.memberExpr (.identifier "client") (.identifier "get"), [.identifier "u"],
   [[("u", .variableDeclarator (some (.stringLit "/api/users")))]]⟩

/-- Concrete call site for C10: a DELETE carrying an object-literal second
argument. -/
def csC10 : CallSite :=
  ⟨.memberExpr (.identifier "client") (.identifier "delete"),
   [.stringLit "/api/x", .objectExpr [.objectProperty (.ident "a") .numericLit]], []⟩

/-- The descriptor the analyzer emits for `csC10`. -/
def epC10 : Endpoint :=
  { path := "/api/x", route := "/api/x", method := "DELETE",
    controllerName := "X", actionName := "deleteX",
    pathParams := [], queryParams := [],
    schemaFields := none, requestBody := none, sourceFile := "f.js" }

/-- Concrete file system for C1: the template-literal URL built from the
fragment `/api/users/` and the interpolated identifier `userId`. -/
def fsC1 : FileSystem :=
  ⟨true, [⟨"app/users.js",
    some [⟨.identifier "fetch",
           [.templateLit ["/api/users/", ""] [.identifier "userId"]], []⟩]⟩]⟩

/-- The descriptor the analyzer emits for the call in `fsC1`. -/
def epC1 : Endpoint :=
  { path := "/api/users/\x7buserId\x7d", route := "/api/users/:userId",
    method := "GET", controllerName := "Users", actionName := "getUserId",
    pathParams := [], queryParams := [],
    schemaFields := none, requestBody := none, sourceFile := "app/users.js" }

/-- Concrete call site for C4, Convention B: the specification's example
`const payload = { id: 1, active: true }; client.post('/api/widgets', payload)`. -/
def csC4 : CallSite :=
  ⟨.memberExpr (.identifier "client") (.identifier "post"),
   [.stringLit "/api/widgets", .identifier "payload"],
   [[("payload", .variableDeclarator (some (.objectExpr
       [.objectProperty (.ident "id") .numericLit,
        .objectProperty (.ident "active") .booleanLit])))]]⟩

/-- Concrete call site for C4, Convention A: the same payload passed through
`fetch('/api/widgets', { method: 'POST', body: JSON.stringify(payload) })`. -/
def csC4f : CallSite :=
  ⟨.identifier "fetch",
   [.stringLit "/api/widgets",
    .objectExpr [.objectProperty (.ident "method") (.stringLit "POST"),
                 .objectProperty (.ident "body")
                   (.callExpr (.memberExpr (.identifier "JSON") (.identifier "stringify"))
                              [.identifier "payload"])]],
   [[("payload", .variableDeclarator (some (.objectExpr
       [.objectProperty (.ident "id") .numericLit,
        .objectProperty (.ident "active") .booleanLit])))]]⟩

/-- The descriptor the analyzer emits for both `csC4` and `csC4f`. -/
def epC4 : Endpoint :=
  { path := "/api/widgets", route := "/api/widgets", method := "POST",
    controllerName := "Widgets", actionName := "postWidgets",
    pathParams := [], queryParams := [],
    schemaFields := some [("id", "Number"), ("active", "Boolean")],
    requestBody := some ⟨[("id", "Number"), ("active", "Boolean")]⟩,
    sourceFile := "f.js" }

/-- Concrete file system for the C5 counterexample:
`fetch('/api/users', { method: 'head' })`. -/
def fsC5 : FileSystem :=
  ⟨true, [⟨"h.js",
    some [⟨.identifier "fetch",
           [.stringLit "/api/users",
            .objectExpr [.objectProperty (.ident "method") (.stringLit "head")]],
           []⟩]⟩]⟩

/-- The descriptor the analyzer emits for the call in `fsC5`. -/
def epC5 : Endpoint :=
  { path := "/api/users", route := "/api/users", method := "HEAD",
    controllerName := "Users", actionName := "headUsers",
    pathParams := [], queryParams := [],
    schemaFields := none, requestBody := none, sourceFile := "h.js" }

/-- Concrete file system for the C6 counterexample:
`fetch('/api/items?tag=a&tag=b')`. -/
def fsC6 : FileSystem :=
  ⟨true, [⟨"q.js",
    some [⟨.identifier "fetch", [.stringLit "/api/items?tag=a&tag=b"], []⟩]⟩]⟩

/-- The descriptor the analyzer emits for the call in `fsC6`. -/
def epC6 : Endpoint :=
  { path := "/api/items?tag=a&tag=b", route := "/api/items", method := "GET",
    controllerName := "Itemstagatagb", actionName := "getItems",
    pathParams := [], queryParams := ["tag", "tag"],
    schemaFields := none, requestBody := none, sourceFile := "q.js" }

/-! Basic lemmas about the string scans. -/

theorem containsSub_iff (pat : List Char) (l : List Char) :
    containsSub pat l = true ↔ containsSeq pat l := by
  induction l with
  | nil =>
    simp only [containsSub, containsSeq]
    constructor
    · intro h
      rcases List.isPrefixOf_iff_prefix.mp h with ⟨t, ht⟩
      exact ⟨[], t, by simp [ht]⟩
    · rintro ⟨l1, l2, h⟩
      have h0 : l1 ++ pat ++ l2 = [] := h.symm
      have h1 := List.append_eq_nil.mp h0
      have h2 := List.append_eq_nil.mp h1.1
      rw [h2.2]; rfl
  | cons c rest ih =>
    simp only [containsSub, Bool.or_eq_true, ih]
    constructor
    · rintro (h | ⟨l1, l2, h⟩)
      · rcases List.isPrefixOf_iff_prefix.mp h with ⟨t, ht⟩
        exact ⟨[], t, by simp [ht]⟩
      · exact ⟨c :: l1, l2, by simp [h]⟩
    · rintro ⟨l1, l2, h⟩
      cases l1 with
      | nil =>
        left
        exact List.isPrefixOf_iff_prefix.mpr ⟨l2, by simpa using h.symm⟩
      | cons a l1 =>
        right
        have h' : c :: rest = a :: (l1 ++ pat ++ l2) := by simpa using h
        exact ⟨l1, l2, ((List.cons.injEq _ _ _ _).mp h').2⟩

theorem apiSuffix_eq_some {l r : List Char} (h : apiSuffix l = some r) :
    apiChars.isPrefixOf r = true ∧ ∃ pre, l = pre ++ r := by
  induction l with
  | nil => simp [apiSuffix] at h
  | cons c rest ih =>
    by_cases hp : apiChars.isPrefixOf (c :: rest) = true
    · simp only [apiSuffix, hp, if_pos] at h
      have hr : c :: rest = r := by injection h
      subst hr
      exact ⟨hp, ⟨[], rfl⟩⟩
    · simp only [apiSuffix, hp] at h
      rcases ih (by simpa using h) with ⟨h1, pre, h2⟩
      exact ⟨h1, ⟨c :: pre, by simp [h2]⟩⟩

theorem extractApiPath_some_contains {u p : String}
    (h : extractApiPath (some u) = some p) : containsSeq apiChars u.data := by
  by_cases he : u = ""
  · subst he; simp [extractApiPath] at h
  · rw [extractApiPath] at h
    simp only [he, if_false, if_neg] at h
    cases hs : apiSuffix u.data with
    | none => rw [hs] at h; simp at h
    | some r =>
      rcases apiSuffix_eq_some hs with ⟨h1, pre, h2⟩
      rcases List.isPrefixOf_iff_prefix.mp h1 with ⟨t, ht⟩
      exact ⟨pre, t, by simp [h2, ← ht]⟩

theorem getUrlValueOpt_eq_none {o : Option Expr} (h : isLiteralUrlArg o = false) :
    getUrlValueOpt o = none := by
  match o with
  | none => rfl
  | some (.stringLit v) => simp [isLiteralUrlArg] at h
  | some (.templateLit q es) => simp [isLiteralUrlArg] at h
  | some .numericLit => rfl
  | some .booleanLit => rfl
  | some .nullLit => rfl
  | some (.identifier n) => rfl
  | some (.objectExpr ps) => rfl
  | some (.callExpr c a) => rfl
  | some (.memberExpr a b) => rfl
  | some .otherExpr => rfl

/-! Lemmas unfolding the visitor. -/

theorem buildEndpoint_fields {file : String} {urlValue : Option String}
    {method : String} {schemaFields : Option Schema} {e : Endpoint}
    (h : buildEndpoint file urlValue method schemaFields = some e) :
    e.method = method ∧ e.schemaFields = schemaFields ∧
    e.requestBody = schemaFields.map RequestBody.mk ∧
    extractApiPath urlValue = some e.path ∧
    e.route = normalizeRouteForBackend ⟨e.path.data.takeWhile (· ≠ '?')⟩ ∧
    e.queryParams = extractQueryParamsFromUrl e.path := by
  cases hx : extractApiPath urlValue with
  | none =>
    simp only [buildEndpoint, hx] at h
    exact Option.noConfusion h
  | some apiPath =>
    simp only [buildEndpoint, hx] at h
    obtain rfl := Option.some.inj h.symm
    exact ⟨rfl, rfl, rfl, rfl, rfl, rfl⟩

theorem buildEndpoint_none {file : String} {method : String}
    {schemaFields : Option Schema} :
    buildEndpoint file none method schemaFields = none := rfl

theorem process_eq_some {cs : CallSite} {f : String} {e : Endpoint}
    (h : processCallExpression cs f = some e) :
    (∃ m, detectAxiosLikeMethod cs.callee = some m ∧
      buildEndpoint f (getUrlValueOpt (cs.args.get? 0)) m
        (axiosSchema cs.scopes cs.args m) = some e) ∨
    (detectAxiosLikeMethod cs.callee = none ∧ cs.callee = .identifier "fetch" ∧
      buildEndpoint f (getUrlValueOpt (cs.args.get? 0)) (fetchMethod cs.args)
        (fetchSchema cs.scopes cs.args (fetchMethod cs.args)) = some e) := by
  unfold processCallExpression at h
  cases ha : detectAxiosLikeMethod cs.callee with
  | some m =>
    rw [ha] at h
    exact Or.inl ⟨m, rfl, h⟩
  | none =>
    rw [ha] at h
    cases hc : cs.callee with
    | identifier n =>
      rw [hc] at h
      have h' : (if (n == "fetch") = true then
          buildEndpoint f (getUrlValueOpt (cs.args.get? 0)) (fetchMethod cs.args)
            (fetchSchema cs.scopes cs.args (fetchMethod cs.args))
        else none) = some e := h
      by_cases hn : n = "fetch"
      · subst hn
        rw [if_pos (by simp)] at h'
        exact Or.inr ⟨rfl, rfl, h'⟩
      · rw [if_neg (by simpa using hn)] at h'
        exact Option.noConfusion h'
    | stringLit v => rw [hc] at h; exact Option.noConfusion h
    | numericLit => rw [hc] at h; exact Option.noConfusion h
    | booleanLit => rw [hc] at h; exact Option.noConfusion h
    | nullLit => rw [hc] at h; exact Option.noConfusion h
    | templateLit q es => rw [hc] at h; exact Option.noConfusion h
    | objectExpr ps => rw [hc] at h; exact Option.noConfusion h
    | callExpr a b => rw [hc] at h; exact Option.noConfusion h
    | memberExpr a b => rw [hc] at h; exact Option.noConfusion h
    | otherExpr => rw [hc] at h; exact Option.noConfusion h

/-! Lemmas about the first-wins aggregation. -/

theorem firstWinsByKey_nil : firstWinsByKey [] = [] := rfl

theorem firstWinsByKey_cons (e : Endpoint) (l : List Endpoint) :
    firstWinsByKey (e :: l) =
      e :: (firstWinsByKey l).filter fun x => !(endpointKey x == endpointKey e) := rfl

theorem mem_firstWinsByKey {x : Endpoint} {l : List Endpoint}
    (h : x ∈ firstWinsByKey l) : x ∈ l := by
  induction l with
  | nil => simp [firstWinsByKey] at h
  | cons e l ih =>
    rw [firstWinsByKey_cons] at h
    rcases List.mem_cons.mp h with h | h
    · exact h ▸ List.mem_cons_self _ _
    · exact List.mem_cons_of_mem _ (ih (List.mem_filter.mp h).1)

theorem firstWinsByPair_cons (e : Endpoint) (l : List Endpoint) :
    firstWinsByPair (e :: l) =
      e :: (firstWinsByPair l).filter fun x => !samePair x e := rfl

theorem mem_firstWinsByPair {x : Endpoint} {l : List Endpoint}
    (h : x ∈ firstWinsByPair l) : x ∈ l := by
  induction l with
  | nil => simp [firstWinsByPair] at h
  | cons e l ih =>
    rw [firstWinsByPair_cons] at h
    rcases List.mem_cons.mp h with h | h
    · exact h ▸ List.mem_cons_self _ _
    · exact List.mem_cons_of_mem _ (ih (List.mem_filter.mp h).1)

theorem firstWinsByKey_pairwise (l : List Endpoint) :
    (firstWinsByKey l).Pairwise fun a b => endpointKey a ≠ endpointKey b := by
  induction l with
  | nil => simp [firstWinsByKey]
  | cons e l ih =>
    rw [firstWinsByKey_cons]
    refine List.Pairwise.cons ?_ (List.Pairwise.filter _ ih)
    intro b hb
    have hba := (List.mem_filter.mp hb).2
    simp only [Bool.not_eq_true', beq_eq_false_iff_ne, ne_eq] at hba
    exact fun hab => hba hab.symm

theorem filter_firstWinsByKey (p : Endpoint → Bool)
    (hp : ∀ x y, endpointKey x = endpointKey y → p x = p y) (l : List Endpoint) :
    firstWinsByKey (l.filter p) = (firstWinsByKey l).filter p := by
  induction l with
  | nil => rfl
  | cons e l ih =>
    by_cases hpe : p e = true
    · rw [List.filter_cons_of_pos hpe, firstWinsByKey_cons, firstWinsByKey_cons, ih,
        List.filter_cons_of_pos hpe]
      congr 1
      rw [List.filter_filter, List.filter_filter]
      apply List.filter_congr
      intro x hx
      exact Bool.and_comm _ _
    · rw [List.filter_cons_of_neg hpe, firstWinsByKey_cons, ih,
        List.filter_cons_of_neg hpe, List.filter_filter]
      apply List.filter_congr
      intro x hx
      by_cases hk : endpointKey x = endpointKey e
      · have hx' : p x = false := by
          rw [hp x e hk]
          simpa using hpe
        simp [hx']
      · simp [hk]

theorem hasKey_append (m : List (String × Endpoint)) (k0 k : String) (x : Endpoint) :
    hasKey (m ++ [(k0, x)]) k = (hasKey m k || (k0 == k)) := by
  simp [hasKey, List.any_append]

theorem foldl_insertEndpoint (es : List Endpoint) (m : List (String × Endpoint)) :
    (es.foldl insertEndpoint m).map Prod.snd =
      m.map Prod.snd ++
        firstWinsByKey (es.filter fun e => !hasKey m (endpointKey e)) := by
  induction es generalizing m with
  | nil => simp [firstWinsByKey]
  | cons e es ih =>
    rw [List.foldl_cons]
    by_cases hc : hasKey m (endpointKey e) = true
    · rw [show insertEndpoint m e = m from by simp [insertEndpoint, hc], ih,
        List.filter_cons_of_neg (by simp [hc])]
    · rw [show insertEndpoint m e = m ++ [(endpointKey e, e)] from by
        simp [insertEndpoint, hc], ih]
      have hfilter :
          (es.filter fun x => !hasKey (m ++ [(endpointKey e, e)]) (endpointKey x))
            = (es.filter fun x => !hasKey m (endpointKey x)).filter
                fun x => !(endpointKey x == endpointKey e) := by
        rw [List.filter_filter]
        apply List.filter_congr
        intro x hx
        rw [hasKey_append]
        by_cases hk : endpointKey x = endpointKey e
        · simp [hk]
        · have h1 : (endpointKey e == endpointKey x) = false := by
            simpa [beq_eq_false_iff_ne] using fun hx' => hk hx'.symm
          have h2 : (endpointKey x == endpointKey e) = false := by
            simpa [beq_eq_false_iff_ne] using hk
          simp [h1, h2]
      rw [hfilter,
        filter_firstWinsByKey (fun x => !(endpointKey x == endpointKey e))
          (fun x y hxy => by simp [endpointKey] at hxy ⊢; rw [hxy]) _,
        List.filter_cons_of_pos (by simp [hc]), firstWinsByKey_cons]
      simp

theorem aggregate_eq_firstWinsByKey (es : List Endpoint) :
    aggregate es = firstWinsByKey es := by
  rw [aggregate, foldl_insertEndpoint]
  simp only [List.map_nil, List.nil_append]
  congr 1
  rw [List.filter_eq_self]
  intro x hx
  simp [hasKey]

/-! Injectivity of the `method:route` key on the descriptors the analyzer can
actually emit: every emitted method is free of the lowercase letter `a`
(methods are upper-cased), while every emitted route starts with `/a` (the
start of its `/api/` segment), so the position of the separating colon is
forced. -/

theorem key_split_nil {m r1 r2 t1 t2 : List Char}
    (hm : 'a' ∉ m) (hr1 : r1 = '/' :: 'a' :: t1) (hr2 : r2 = '/' :: 'a' :: t2)
    (h : ':' :: r1 = m ++ ':' :: r2) : m = [] ∧ r1 = r2 := by
  cases m with
  | nil => exact ⟨rfl, by simpa using h⟩
  | cons c m' =>
    have h' : ':' :: r1 = c :: (m' ++ ':' :: r2) := by simpa using h
    obtain ⟨hc, htail⟩ := (List.cons.injEq _ _ _ _).mp h'
    rw [hr1] at htail
    cases m' with
    | nil => simp at htail
    | cons d m'' =>
      have h2 : '/' :: 'a' :: t1 = d :: (m'' ++ ':' :: r2) := by simpa using htail
      obtain ⟨hd, htail2⟩ := (List.cons.injEq _ _ _ _).mp h2
      cases m'' with
      | nil => simp at htail2
      | cons x m3 =>
        have h3 : 'a' :: t1 = x :: (m3 ++ ':' :: r2) := by simpa using htail2
        obtain ⟨hx, -⟩ := (List.cons.injEq _ _ _ _).mp h3
        exact absurd (by simp [← hx]) hm

theorem key_inj {m1 m2 r1 r2 t1 t2 : List Char}
    (hm1 : 'a' ∉ m1) (hm2 : 'a' ∉ m2)
    (hr1 : r1 = '/' :: 'a' :: t1) (hr2 : r2 = '/' :: 'a' :: t2)
    (h : m1 ++ ':' :: r1 = m2 ++ ':' :: r2) : m1 = m2 ∧ r1 = r2 := by
  induction m1 generalizing m2 with
  | nil =>
    obtain ⟨he, hr⟩ := key_split_nil hm2 hr1 hr2 (by simpa using h)
    exact ⟨he.symm, hr⟩
  | cons c m1' ih =>
    cases m2 with
    | nil =>
      obtain ⟨he, -⟩ := key_split_nil hm1 hr2 hr1 (by simpa using h.symm)
      exact absurd he (by simp)
    | cons d m2' =>
      have h' : c :: (m1' ++ ':' :: r1) = d :: (m2' ++ ':' :: r2) := by simpa using h
      obtain ⟨hcd, htail⟩ := (List.cons.injEq _ _ _ _).mp h'
      have hm1' : 'a' ∉ m1' := fun hx => hm1 (List.mem_cons_of_mem _ hx)
      have hm2' : 'a' ∉ m2' := fun hx => hm2 (List.mem_cons_of_mem _ hx)
      obtain ⟨hm, hr⟩ := ih hm1' hm2' htail
      exact ⟨by rw [hcd, hm], hr⟩

theorem upperPairs_snd_ne_a : ∀ p ∈ upperPairs, p.2 ≠ 'a' := by decide

theorem jsCharUpper_ne_a (c : Char) : jsCharUpper c ≠ 'a' := by
  unfold jsCharUpper
  cases hf : upperPairs.find? (fun p => p.1 == c) with
  | none =>
    intro hc
    simp only [Option.map_none', Option.getD_none] at hc
    have h0 := List.find?_eq_none.mp hf ('a', 'A') (by decide)
    simp [hc] at h0
  | some p =>
    have hp := List.mem_of_find?_eq_some hf
    simpa using upperPairs_snd_ne_a p hp

theorem jsToUpper_no_a (s : String) : 'a' ∉ (jsToUpper s).data := by
  intro h
  rcases List.mem_map.mp (h : 'a' ∈ s.data.map jsCharUpper) with ⟨c, -, hc⟩
  exact jsCharUpper_ne_a c hc

theorem detectAxios_eq_some {callee : Expr} {m : String}
    (h : detectAxiosLikeMethod callee = some m) :
    ∃ s, HTTP_METHODS.contains s = true ∧ m = jsToUpper s := by
  match callee with
  | .memberExpr obj (.identifier propName) =>
    have h' : (if HTTP_METHODS.contains (jsToLower propName) = true then
        some (jsToUpper (jsToLower propName)) else none) = some m := h
    by_cases hc : HTTP_METHODS.contains (jsToLower propName) = true
    · rw [if_pos hc] at h'
      exact ⟨jsToLower propName, hc, (Option.some.inj h').symm⟩
    · rw [if_neg hc] at h'
      exact Option.noConfusion h'
  | .memberExpr obj .numericLit => exact Option.noConfusion h
  | .memberExpr obj .booleanLit => exact Option.noConfusion h
  | .memberExpr obj .nullLit => exact Option.noConfusion h
  | .memberExpr obj (.stringLit v) => exact Option.noConfusion h
  | .memberExpr obj (.templateLit q es) => exact Option.noConfusion h
  | .memberExpr obj (.objectExpr ps) => exact Option.noConfusion h
  | .memberExpr obj (.callExpr a b) => exact Option.noConfusion h
  | .memberExpr obj (.memberExpr a b) => exact Option.noConfusion h
  | .memberExpr obj .otherExpr => exact Option.noConfusion h
  | .stringLit v => exact Option.noConfusion h
  | .numericLit => exact Option.noConfusion h
  | .booleanLit => exact Option.noConfusion h
  | .nullLit => exact Option.noConfusion h
  | .identifier n => exact Option.noConfusion h
  | .templateLit q es => exact Option.noConfusion h
  | .objectExpr ps => exact Option.noConfusion h
  | .callExpr a b => exact Option.noConfusion h
  | .otherExpr => exact Option.noConfusion h

theorem detectAxios_mem_five {callee : Expr} {m : String}
    (h : detectAxiosLikeMethod callee = some m) :
    m ∈ (["GET", "POST", "PUT", "PATCH", "DELETE"] : List String) := by
  rcases detectAxios_eq_some h with ⟨s, hs, rfl⟩
  have hmem : s ∈ HTTP_METHODS := by
    simpa using hs
  simp only [HTTP_METHODS, List.mem_cons, List.mem_singleton] at hmem
  rcases hmem with rfl | rfl | rfl | rfl | rfl | h0
  · decide
  · decide
  · decide
  · decide
  · decide
  · simp at h0

theorem methodFromProp_shape (o : Option Expr) :
    methodFromProp o = "GET" ∨ ∃ v, methodFromProp o = jsToUpper v := by
  cases o with
  | none => exact Or.inl rfl
  | some a =>
    cases a
    case stringLit s => exact Or.inr ⟨s, rfl⟩
    all_goals exact Or.inl rfl

theorem methodFromOptions_cases (o : Option Expr) :
    methodFromOptions o = "GET" ∨
    ∃ props v, o = some (.objectExpr props) ∧
      findObjProp "method" props = some (.stringLit v) ∧
      methodFromOptions o = jsToUpper v := by
  cases o with
  | none => exact Or.inl rfl
  | some a =>
    cases a with
    | objectExpr props =>
      show methodFromProp (findObjProp "method" props) = "GET" ∨ _
      cases h2 : findObjProp "method" props with
      | none => exact Or.inl rfl
      | some v =>
        cases v with
        | stringLit s =>
          refine Or.inr ⟨props, s, rfl, h2, ?_⟩
          show methodFromProp (findObjProp "method" props) = jsToUpper s
          rw [h2]
          rfl
        | numericLit => exact Or.inl rfl
        | booleanLit => exact Or.inl rfl
        | nullLit => exact Or.inl rfl
        | identifier n2 => exact Or.inl rfl
        | templateLit q es => exact Or.inl rfl
        | objectExpr ps => exact Or.inl rfl
        | callExpr x y => exact Or.inl rfl
        | memberExpr x y => exact Or.inl rfl
        | otherExpr => exact Or.inl rfl
    | stringLit v => exact Or.inl rfl
    | numericLit => exact Or.inl rfl
    | booleanLit => exact Or.inl rfl
    | nullLit => exact Or.inl rfl
    | identifier n2 => exact Or.inl rfl
    | templateLit q es => exact Or.inl rfl
    | callExpr x y => exact Or.inl rfl
    | memberExpr x y => exact Or.inl rfl
    | otherExpr => exact Or.inl rfl

theorem fetchMethod_shape (args : List Expr) :
    fetchMethod args = "GET" ∨ ∃ v, fetchMethod args = jsToUpper v := by
  show methodFromOptions (args.get? 1) = "GET" ∨
    ∃ v, methodFromOptions (args.get? 1) = jsToUpper v
  cases args.get? 1 with
  | none => exact Or.inl rfl
  | some a =>
    cases a
    case objectExpr props => exact methodFromProp_shape (findObjProp "method" props)
    all_goals exact Or.inl rfl

theorem extractApiPath_shape {o : Option String} {p : String}
    (h : extractApiPath o = some p) :
    ∃ t, p.data = '/' :: 'a' :: 'p' :: 'i' :: '/' :: t := by
  match o with
  | none => exact Option.noConfusion h
  | some u =>
    by_cases he : u = ""
    · rw [extractApiPath] at h; simp [he] at h
    · rw [extractApiPath] at h
      simp only [he, if_false, if_neg] at h
      cases hs : apiSuffix u.data with
      | none => rw [hs] at h; simp at h
      | some r =>
        rw [hs] at h
        simp only [Option.map_some'] at h
        obtain rfl := Option.some.inj h
        rcases apiSuffix_eq_some hs with ⟨h1, -⟩
        rcases List.isPrefixOf_iff_prefix.mp h1 with ⟨t, ht⟩
        refine ⟨t, ?_⟩
        show r = '/' :: 'a' :: 'p' :: 'i' :: '/' :: t
        rw [← ht]
        rfl

theorem takeWhile_q_cons {c : Char} (l : List Char) (hc : c ≠ '?') :
    List.takeWhile (· ≠ '?') (c :: l) = c :: List.takeWhile (· ≠ '?') l := by
  simp [List.takeWhile_cons, hc]

theorem normRouteAux_cons {c : Char} (l : List Char) (hc : c ≠ '{') :
    normRouteAux none (c :: l) = c :: normRouteAux none l := by
  simp [normRouteAux, hc]

theorem buildEndpoint_route_shape {file : String} {urlValue : Option String}
    {method : String} {schemaFields : Option Schema} {e : Endpoint}
    (h : buildEndpoint file urlValue method schemaFields = some e) :
    ∃ t, e.route.data = '/' :: 'a' :: t := by
  rcases buildEndpoint_fields h with ⟨-, -, -, hpath, hroute, -⟩
  rcases extractApiPath_shape hpath with ⟨t0, ht0⟩
  have hdata : e.route.data =
      normRouteAux none (e.path.data.takeWhile (· ≠ '?')) := by rw [hroute]; rfl
  rw [ht0, takeWhile_q_cons _ (by decide), takeWhile_q_cons _ (by decide),
    normRouteAux_cons _ (by decide), normRouteAux_cons _ (by decide)] at hdata
  exact ⟨_, hdata⟩

theorem process_method_inv {cs : CallSite} {f : String} {e : Endpoint}
    (h : processCallExpression cs f = some e) : 'a' ∉ e.method.data := by
  rcases process_eq_some h with ⟨m, hm, hb⟩ | ⟨-, -, hb⟩
  · rcases buildEndpoint_fields hb with ⟨hmeth, -⟩
    rcases detectAxios_eq_some hm with ⟨s, -, rfl⟩
    rw [hmeth]
    exact jsToUpper_no_a _
  · rcases buildEndpoint_fields hb with ⟨hmeth, -⟩
    rw [hmeth]
    rcases fetchMethod_shape cs.args with hg | ⟨v, hv⟩
    · rw [hg]; decide
    · rw [hv]; exact jsToUpper_no_a _

theorem process_route_inv {cs : CallSite} {f : String} {e : Endpoint}
    (h : processCallExpression cs f = some e) :
    ∃ t, e.route.data = '/' :: 'a' :: t := by
  rcases process_eq_some h with ⟨m, -, hb⟩ | ⟨-, -, hb⟩ <;>
    exact buildEndpoint_route_shape hb

theorem endpointKey_data (e : Endpoint) :
    (endpointKey e).data = e.method.data ++ ':' :: e.route.data := by
  show (e.method.data ++ [':']) ++ e.route.data = e.method.data ++ ':' :: e.route.data
  rw [List.append_assoc]
  rfl

theorem key_eq_iff_pair {a b : Endpoint}
    (ha1 : 'a' ∉ a.method.data) (ha2 : ∃ t, a.route.data = '/' :: 'a' :: t)
    (hb1 : 'a' ∉ b.method.data) (hb2 : ∃ t, b.route.data = '/' :: 'a' :: t) :
    endpointKey a = endpointKey b ↔ (a.method = b.method ∧ a.route = b.route) := by
  constructor
  · intro h
    have hd : (endpointKey a).data = (endpointKey b).data := by rw [h]
    rw [endpointKey_data, endpointKey_data] at hd
    rcases ha2 with ⟨t1, ht1⟩
    rcases hb2 with ⟨t2, ht2⟩
    obtain ⟨hm, hr⟩ := key_inj ha1 hb1 ht1 ht2 hd
    exact ⟨String.ext hm, String.ext hr⟩
  · rintro ⟨h1, h2⟩
    rw [endpointKey, endpointKey, h1, h2]

theorem firstWinsByKey_eq_pair {l : List Endpoint}
    (hInv : ∀ e ∈ l, 'a' ∉ e.method.data ∧ ∃ t, e.route.data = '/' :: 'a' :: t) :
    firstWinsByKey l = firstWinsByPair l := by
  induction l with
  | nil => rfl
  | cons e l ih =>
    rw [firstWinsByKey_cons, firstWinsByPair_cons,
      ih fun x hx => hInv x (List.mem_cons_of_mem _ hx)]
    congr 1
    apply List.filter_congr
    intro x hx
    have hxI := hInv x (List.mem_cons_of_mem _ (mem_firstWinsByPair hx))
    have heI := hInv e (List.mem_cons_self _ _)
    have hiff := key_eq_iff_pair hxI.1 hxI.2 heI.1 heI.2
    by_cases hk : endpointKey x = endpointKey e
    · have hp := hiff.mp hk
      simp [hk, samePair, hp.1, hp.2]
    · have hp : ¬(x.method = e.method ∧ x.route = e.route) := fun hc => hk (hiff.mpr hc)
      have hs : samePair x e = false := by
        by_contra hc
        rw [Bool.not_eq_false] at hc
        simp only [samePair, Bool.and_eq_true, beq_iff_eq] at hc
        exact hp hc
      simp [hs, beq_eq_false_iff_ne.mpr hk]

theorem firstWinsByPair_pairwise (l : List Endpoint) :
    (firstWinsByPair l).Pairwise
      fun a b => ¬(a.method = b.method ∧ a.route = b.route) := by
  induction l with
  | nil => simp [firstWinsByPair]
  | cons e l ih =>
    rw [firstWinsByPair_cons]
    refine List.Pairwise.cons ?_ (List.Pairwise.filter _ ih)
    intro b hb hc
    have hba := (List.mem_filter.mp hb).2
    simp only [Bool.not_eq_true', samePair, Bool.and_eq_false_iff,
      beq_eq_false_iff_ne, ne_eq] at hba
    rcases hba with hba | hba
    · exact hba hc.1.symm
    · exact hba hc.2.symm

theorem fileEndpoints_inv {e : Endpoint} {f : SourceFile} (h : e ∈ fileEndpoints f) :
    'a' ∉ e.method.data ∧ ∃ t, e.route.data = '/' :: 'a' :: t := by
  unfold fileEndpoints at h
  cases hp : f.parse with
  | none => rw [hp] at h; simp at h
  | some sites =>
    rw [hp] at h
    rcases List.mem_filterMap.mp h with ⟨s, -, hs⟩
    exact ⟨process_method_inv hs, process_route_inv hs⟩

theorem obs_inv (files : List SourceFile) :
    ∀ e ∈ files.flatMap fileEndpoints,
      'a' ∉ e.method.data ∧ ∃ t, e.route.data = '/' :: 'a' :: t := by
  intro e he
  rcases List.mem_flatMap.mp he with ⟨f, -, hf⟩
  exact fileEndpoints_inv hf

theorem aggregate_eq_firstWinsByPair (files : List SourceFile) :
    aggregate (files.flatMap fileEndpoints)
      = firstWinsByPair (files.flatMap fileEndpoints) := by
  rw [aggregate_eq_firstWinsByKey, firstWinsByKey_eq_pair (obs_inv files)]

/-! Claim theorems. -/

/-- C2: the returned IR never contains two EndpointDescriptors with the same
(method, route) pair; the final list is exactly the first-wins de-duplication
of the observation sequence keyed by the (method, route) pair, ordered by
first insertion — file traversal order, then call-site order within a file. -/
theorem c2_first_wins_dedup (srcPath : String) (fsys : FileSystem)
    (h1 : srcPath ≠ "") (h2 : fsys.rootExists = true) :
    analyzeFrontend srcPath fsys
      = .ok (firstWinsByPair (fsys.files.flatMap fileEndpoints)) ∧
    (firstWinsByPair (fsys.files.flatMap fileEndpoints)).Pairwise
      fun a b => ¬(a.method = b.method ∧ a.route = b.route) := by
  constructor
  · unfold analyzeFrontend
    rw [if_neg h1, if_neg (by simp [h2]), aggregate_eq_firstWinsByPair]
  · exact firstWinsByPair_pairwise _

/-- Witness for C2 at the concrete file system `fsC2`. -/
theorem c2_first_wins_dedup_witness :
    ("frontend" ≠ "" ∧ fsC2.rootExists = true) ∧
    (analyzeFrontend "frontend" fsC2
        = .ok (firstWinsByPair (fsC2.files.flatMap fileEndpoints)) ∧
      (firstWinsByPair (fsC2.files.flatMap fileEndpoints)).Pairwise
        fun a b => ¬(a.method = b.method ∧ a.route = b.route)) ∧
    (firstWinsByPair (fsC2.files.flatMap fileEndpoints)).map Endpoint.path
      = ["/api/a?x=1", "/api/b"] :=
  ⟨⟨by decide, rfl⟩, c2_first_wins_dedup "frontend" fsC2 (by decide) rfl, by decide⟩

/-- C3: a call site whose resolved URL does not contain the substring `/api/`
anywhere produces no EndpointDescriptor. -/
theorem c3_admission_filter (cs : CallSite) (f : String)
    (h : urlHasApi (getUrlValueOpt (cs.args.get? 0)) = false) :
    processCallExpression cs f = none := by
  cases hp : processCallExpression cs f with
  | none => rfl
  | some e =>
    exfalso
    rcases process_eq_some hp with ⟨m, -, hb⟩ | ⟨-, -, hb⟩ <;>
    · rcases buildEndpoint_fields hb with ⟨-, -, -, hpath, -⟩
      cases hu : getUrlValueOpt (cs.args.get? 0) with
      | none => rw [hu] at hpath; exact Option.noConfusion hpath
      | some u =>
        rw [hu] at hpath
        rw [hu] at h
        have hc := (containsSub_iff apiChars u.data).mpr
          (extractApiPath_some_contains hpath)
        rw [show urlHasApi (some u) = containsSub apiChars u.data from rfl, hc] at h
        exact Bool.noConfusion h

/-- Witness for C3: `/assets/logo.png` is dropped by the admission filter. -/
theorem c3_admission_filter_witness :
    urlHasApi (getUrlValueOpt (csC3.args.get? 0)) = false ∧
    processCallExpression csC3 "f.js" = none :=
  ⟨by decide, c3_admission_filter csC3 "f.js" (by decide)⟩

/-- Endpoints of the parse-failing files vanish from the flattened
observation list. -/
theorem flatMap_filter_parse (files : List SourceFile) :
    ((files.filter fun f => f.parse.isSome).flatMap fileEndpoints)
      = files.flatMap fileEndpoints := by
  induction files with
  | nil => rfl
  | cons f fs ih =>
    by_cases hp : f.parse.isSome = true
    · rw [List.filter_cons, if_pos hp, List.flatMap_cons, List.flatMap_cons, ih]
    · rw [List.filter_cons, if_neg hp, List.flatMap_cons, ih]
      have hnil : fileEndpoints f = [] := by
        unfold fileEndpoints
        cases hpp : f.parse with
        | none => rfl
        | some s => rw [hpp] at hp; simp at hp
      rw [hnil, List.nil_append]

/-- C7: a file whose text fails to parse contributes zero endpoints and never
aborts the analysis; the result over all files equals the result over the
files that do parse. -/
theorem c7_parse_failure_tolerance (srcPath : String) (fsys : FileSystem)
    (nm : String) :
    fileEndpoints ⟨nm, none⟩ = [] ∧
    analyzeFrontend srcPath fsys
      = analyzeFrontend srcPath
          ⟨fsys.rootExists, fsys.files.filter fun f => f.parse.isSome⟩ := by
  refine ⟨rfl, ?_⟩
  unfold analyzeFrontend
  by_cases h1 : srcPath = ""
  · rw [if_pos h1, if_pos h1]
  · rw [if_neg h1, if_neg h1, flatMap_filter_parse]

/-- C8: the analysis fails with the DirectoryNotFound condition exactly when
the root does not exist; the failure does not depend on any file contents
(nothing is read), and an existing root always yields a result. -/
theorem c8_directory_not_found (srcPath : String) (fsys fsys' : FileSystem)
    (h : srcPath ≠ "") (hflag : fsys'.rootExists = fsys.rootExists) :
    (analyzeFrontend srcPath fsys = .error (.directoryNotFound srcPath)
        ↔ fsys.rootExists = false) ∧
    (fsys.rootExists = false →
      analyzeFrontend srcPath fsys = analyzeFrontend srcPath fsys') ∧
    (fsys.rootExists = true → ∃ eps, analyzeFrontend srcPath fsys = .ok eps) := by
  unfold analyzeFrontend
  rw [if_neg h, if_neg h]
  cases hr : fsys.rootExists with
  | false =>
    rw [hr] at hflag
    rw [hflag]
    refine ⟨by simp, fun _ => by simp, fun hc => absurd hc (by simp)⟩
  | true =>
    rw [hr] at hflag
    refine ⟨by simp, fun hc => absurd hc (by simp),
      fun _ => ⟨aggregate (fsys.files.flatMap fileEndpoints), by simp⟩⟩

/-- Witness for C8 at the concrete file systems. -/
theorem c8_directory_not_found_witness :
    ("app" ≠ "" ∧ fsC8'.rootExists = fsC8.rootExists) ∧
    ((analyzeFrontend "app" fsC8 = .error (.directoryNotFound "app")
        ↔ fsC8.rootExists = false) ∧
      (fsC8.rootExists = false →
        analyzeFrontend "app" fsC8 = analyzeFrontend "app" fsC8') ∧
      (fsC8.rootExists = true → ∃ eps, analyzeFrontend "app" fsC8 = .ok eps)) :=
  ⟨⟨by decide, rfl⟩, c8_directory_not_found "app" fsC8 fsC8' (by decide) rfl⟩

/-- C9: a recognized call site whose URL argument is neither a string literal
nor a template literal contributes no EndpointDescriptor, whatever the scope
chain holds — identifier resolution is never applied to URL arguments. -/
theorem c9_url_literals_only (cs : CallSite) (f : String)
    (h : isLiteralUrlArg (cs.args.get? 0) = false) :
    processCallExpression cs f = none := by
  cases hp : processCallExpression cs f with
  | none => rfl
  | some e =>
    exfalso
    rcases process_eq_some hp with ⟨m, -, hb⟩ | ⟨-, -, hb⟩ <;>
    · rcases buildEndpoint_fields hb with ⟨-, -, -, hpath, -⟩
      rw [getUrlValueOpt_eq_none h] at hpath
      exact Option.noConfusion hpath

/-- Witness for C9 at the concrete call site. -/
theorem c9_url_literals_only_witness :
    isLiteralUrlArg (csC9.args.get? 0) = false ∧
    processCallExpression csC9 "f.js" = none :=
  ⟨by decide, c9_url_literals_only csC9 "f.js" (by decide)⟩

/-- C10: requestBody is present exactly when schemaFields is (it is the
`{ fields: ... }` wrapper around it), and a schema can only be present when
the method is POST, PUT or PATCH. -/
theorem c10_body_only_mutating (cs : CallSite) (f : String) (e : Endpoint)
    (h : processCallExpression cs f = some e) :
    (e.requestBody = none ↔ e.schemaFields = none) ∧
    e.requestBody = e.schemaFields.map RequestBody.mk ∧
    (e.schemaFields ≠ none →
      e.method ∈ (["POST", "PUT", "PATCH"] : List String)) := by
  rcases process_eq_some h with ⟨m, hm, hb⟩ | ⟨-, -, hb⟩
  · rcases buildEndpoint_fields hb with ⟨hmeth, hsch, hreq, -⟩
    refine ⟨by rw [hreq, hsch]; simp, by rw [hreq, hsch], ?_⟩
    intro hne
    rw [hsch] at hne
    rw [hmeth]
    unfold axiosSchema at hne
    by_cases hc : (["POST", "PUT", "PATCH"] : List String).contains m = true
    · simpa using hc
    · rw [if_neg hc] at hne
      exact absurd rfl hne
  · rcases buildEndpoint_fields hb with ⟨hmeth, hsch, hreq, -⟩
    refine ⟨by rw [hreq, hsch]; simp, by rw [hreq, hsch], ?_⟩
    intro hne
    rw [hsch] at hne
    rw [hmeth]
    unfold fetchSchema fetchSchemaFromOptions at hne
    cases h1 : cs.args.get? 1 with
    | none => rw [h1] at hne; exact absurd rfl hne
    | some a =>
      rw [h1] at hne
      cases a with
      | objectExpr props =>
        have hne' : (if (["POST", "PUT", "PATCH"] : List String).contains
              (fetchMethod cs.args) = true then
            schemaFromBodyProp cs.scopes (findObjProp "body" props)
          else none) ≠ none := hne
        by_cases hc :
            (["POST", "PUT", "PATCH"] : List String).contains (fetchMethod cs.args) = true
        · simpa using hc
        · rw [if_neg hc] at hne'
          exact absurd rfl hne'
      | stringLit v => exact absurd rfl hne
      | numericLit => exact absurd rfl hne
      | booleanLit => exact absurd rfl hne
      | nullLit => exact absurd rfl hne
      | identifier n => exact absurd rfl hne
      | templateLit q es => exact absurd rfl hne
      | callExpr x y => exact absurd rfl hne
      | memberExpr x y => exact absurd rfl hne
      | otherExpr => exact absurd rfl hne

/-- Witness for C10: the DELETE call with an object payload still has no
requestBody. -/
theorem c10_body_only_mutating_witness :
    processCallExpression csC10 "f.js" = some epC10 ∧
    ((epC10.requestBody = none ↔ epC10.schemaFields = none) ∧
      epC10.requestBody = epC10.schemaFields.map RequestBody.mk ∧
      (epC10.schemaFields ≠ none →
        epC10.method ∈ (["POST", "PUT", "PATCH"] : List String))) ∧
    epC10.requestBody = none :=
  ⟨by decide, c10_body_only_mutating csC10 "f.js" epC10 (by decide), by decide⟩

/-- C1 (code bug): the template URL does yield rawPath
`/api/users/{userId}` and route `/api/users/:userId` as claimed, but
pathParams comes out empty instead of `["userId"]` — `extractPathParams` runs
the regex `[:{](\w+)[}]`, which demands a closing brace, over the colon-form
route where no brace remains, so it can never capture `:userId`. -/
theorem c1_pathParams_empty_eval :
    analyzeFrontend "frontend" fsC1 = .ok [epC1] ∧
    epC1.path = "/api/users/\x7buserId\x7d" ∧
    epC1.route = "/api/users/:userId" ∧
    epC1.pathParams = [] ∧
    extractPathParams epC1.route = [] :=
  ⟨rfl, by decide, by decide, by decide, by decide⟩

/-- One hop of scope-chain resolution read through the initializer check:
the shared identifier-payload semantics of both conventions. -/
theorem schemaFromInit_resolve (scopes : List Scope) (n : String) :
    schemaFromInit (resolveIdentifierToInit scopes n) = oneHopSchema scopes n := by
  unfold oneHopSchema resolveIdentifierToInit
  cases hb : getBinding scopes n with
  | none => rfl
  | some d =>
    cases d with
    | otherDecl => rfl
    | variableDeclarator init =>
      cases init with
      | none => rfl
      | some ie =>
        cases ie with
        | objectExpr props => rfl
        | stringLit v => rfl
        | numericLit => rfl
        | booleanLit => rfl
        | nullLit => rfl
        | identifier n2 => rfl
        | templateLit q es => rfl
        | callExpr x y => rfl
        | memberExpr x y => rfl
        | otherExpr => rfl

/-- A bare-identifier payload goes through the one-hop resolution. -/
theorem schemaFromPayload_identifier (scopes : List Scope) (n : String) :
    schemaFromPayload scopes (.identifier n) = oneHopSchema scopes n := by
  show schemaFromInit (resolveIdentifierToInit scopes n) = oneHopSchema scopes n
  exact schemaFromInit_resolve scopes n

/-- The `body` property handling on a `JSON.stringify` value hands its first
argument to the payload check. -/
theorem schemaFromBodyProp_some (scopes : List Scope) {v a : Expr}
    (hjson : isJSONStringifyCall v = true) (harg : jsonStringifyArg v = some a) :
    schemaFromBodyProp scopes (some v) = schemaFromPayload scopes a := by
  show (if isJSONStringifyCall v = true then
      schemaFromStringifyArg scopes (jsonStringifyArg v)
    else none) = schemaFromPayload scopes a
  rw [if_pos hjson, harg]
  rfl

/-- C4: when the payload argument of a POST/PUT/PATCH call is a bare
identifier — the second positional argument of a Convention B client call, or
the argument of the `JSON.stringify(...)` wrapper inside the `body` property
of a Convention A `fetch` options record — the schema comes from exactly one
hop of scope-chain resolution: the nearest binding must be a variable
declarator whose initializer is itself an object literal (an initializer that
is an identifier is not chased), and any other outcome leaves the schema and
requestBody absent. -/
theorem c4_one_hop_schema (cs : CallSite) (f : String) (n : String) (e : Endpoint)
    (h : processCallExpression cs f = some e) :
    (∀ m, detectAxiosLikeMethod cs.callee = some m →
      (["POST", "PUT", "PATCH"] : List String).contains m = true →
      cs.args.get? 1 = some (.identifier n) →
      e.schemaFields = oneHopSchema cs.scopes n ∧
      e.requestBody = (oneHopSchema cs.scopes n).map RequestBody.mk) ∧
    (∀ props bodyV, cs.callee = .identifier "fetch" →
      cs.args.get? 1 = some (.objectExpr props) →
      (["POST", "PUT", "PATCH"] : List String).contains (fetchMethod cs.args) = true →
      findObjProp "body" props = some bodyV →
      isJSONStringifyCall bodyV = true →
      jsonStringifyArg bodyV = some (.identifier n) →
      e.schemaFields = oneHopSchema cs.scopes n ∧
      e.requestBody = (oneHopSchema cs.scopes n).map RequestBody.mk) := by
  constructor
  · intro m hm h3 harg
    rcases process_eq_some h with ⟨m', hm', hb⟩ | ⟨hnone, -, -⟩
    · rw [hm] at hm'
      obtain rfl := Option.some.inj hm'
      rcases buildEndpoint_fields hb with ⟨-, hsch, hreq, -⟩
      have hax : axiosSchema cs.scopes cs.args m = oneHopSchema cs.scopes n := by
        unfold axiosSchema
        rw [if_pos h3, harg]
        show schemaFromPayload cs.scopes (.identifier n) = oneHopSchema cs.scopes n
        exact schemaFromPayload_identifier cs.scopes n
      exact ⟨by rw [hsch, hax], by rw [hreq, hax]⟩
    · rw [hm] at hnone
      exact Option.noConfusion hnone
  · intro props bodyV hcallee hprops hcont hbody hjson harg0
    rcases process_eq_some h with ⟨m', hm', -⟩ | ⟨-, -, hb⟩
    · rw [hcallee] at hm'
      exact Option.noConfusion hm'
    · rcases buildEndpoint_fields hb with ⟨-, hsch, hreq, -⟩
      have hfs : fetchSchema cs.scopes cs.args (fetchMethod cs.args)
          = oneHopSchema cs.scopes n := by
        show fetchSchemaFromOptions cs.scopes (cs.args.get? 1) (fetchMethod cs.args)
          = oneHopSchema cs.scopes n
        rw [hprops]
        show (if (["POST", "PUT", "PATCH"] : List String).contains
              (fetchMethod cs.args) = true then
            schemaFromBodyProp cs.scopes (findObjProp "body" props)
          else none) = oneHopSchema cs.scopes n
        rw [if_pos hcont, hbody, schemaFromBodyProp_some cs.scopes hjson harg0,
          schemaFromPayload_identifier]
      exact ⟨by rw [hsch, hfs], by rw [hreq, hfs]⟩

/-- Witness for C4: both conventions at the concrete payload
`const payload = { id: 1, active: true }` — the Convention B call `csC4` and
the Convention A call `csC4f` — resolve one hop to the fields
`{id: Number, active: Boolean}`. -/
theorem c4_one_hop_schema_witness :
    (processCallExpression csC4 "f.js" = some epC4 ∧
      processCallExpression csC4f "f.js" = some epC4) ∧
    ((epC4.schemaFields = oneHopSchema csC4.scopes "payload" ∧
        epC4.requestBody = (oneHopSchema csC4.scopes "payload").map RequestBody.mk) ∧
      (epC4.schemaFields = oneHopSchema csC4f.scopes "payload" ∧
        epC4.requestBody = (oneHopSchema csC4f.scopes "payload").map RequestBody.mk)) ∧
    oneHopSchema csC4.scopes "payload"
      = some [("id", "Number"), ("active", "Boolean")] ∧
    oneHopSchema csC4f.scopes "payload"
      = some [("id", "Number"), ("active", "Boolean")] :=
  ⟨⟨by decide, by decide⟩,
   ⟨(c4_one_hop_schema csC4 "f.js" "payload" epC4 (by decide)).1 "POST"
      (by decide) (by decide) rfl,
    (c4_one_hop_schema csC4f "f.js" "payload" epC4 (by decide)).2
      [.objectProperty (.ident "method") (.stringLit "POST"),
       .objectProperty (.ident "body")
         (.callExpr (.memberExpr (.identifier "JSON") (.identifier "stringify"))
                    [.identifier "payload"])]
      (.callExpr (.memberExpr (.identifier "JSON") (.identifier "stringify"))
                 [.identifier "payload"])
      rfl rfl (by decide) rfl (by decide) rfl⟩,
   by decide, by decide⟩

/-- C5 (amended): every emitted method is either one of the five verbs (a
Convention B method is always among them, and a Convention A call without a
usable options `method` string defaults to GET) or the upper-cased value of
the options record's `method` string literal — which, as the counterexample
shows, may fall outside the five. -/
theorem c5_amended_methods (cs : CallSite) (f : String) (e : Endpoint)
    (h : processCallExpression cs f = some e) :
    (e.method ∈ (["GET", "POST", "PUT", "PATCH", "DELETE"] : List String) ∨
      ∃ props v, cs.args.get? 1 = some (.objectExpr props) ∧
        findObjProp "method" props = some (.stringLit v) ∧
        e.method = jsToUpper v) ∧
    (cs.callee = .identifier "fetch" → cs.args.get? 1 = none →
      e.method = "GET") := by
  rcases process_eq_some h with ⟨m, hm, hb⟩ | ⟨hax, hfetch, hb⟩
  · rcases buildEndpoint_fields hb with ⟨hmeth, -⟩
    refine ⟨Or.inl (hmeth ▸ detectAxios_mem_five hm), ?_⟩
    intro hcallee _
    rw [hcallee] at hm
    exact Option.noConfusion hm
  · rcases buildEndpoint_fields hb with ⟨hmeth, -⟩
    constructor
    · rw [hmeth]
      rcases methodFromOptions_cases (cs.args.get? 1) with hg | ⟨props, v, h1, h2, hv⟩
      · have hf : fetchMethod cs.args = "GET" := hg
        rw [hf]
        exact Or.inl (by decide)
      · have hf : fetchMethod cs.args = jsToUpper v := hv
        exact Or.inr ⟨props, v, h1, h2, hf⟩
    · intro _ harg
      rw [hmeth]
      show methodFromOptions (cs.args.get? 1) = "GET"
      rw [harg]
      rfl

/-- Counterexample to C5 as stated: the options string `'head'` is upper-cased
and used verbatim, so the emitted method `HEAD` is not one of
GET/POST/PUT/PATCH/DELETE. -/
theorem c5_method_head_counterexample :
    analyzeFrontend "frontend" fsC5 = .ok [epC5] ∧
    epC5.method = "HEAD" ∧
    epC5.method ∉ (["GET", "POST", "PUT", "PATCH", "DELETE"] : List String) :=
  ⟨rfl, by decide, by decide⟩

/-- Witness for the amended C5 at the concrete call site of `fsC5`. -/
theorem c5_amended_methods_witness :
    processCallExpression
        ⟨.identifier "fetch",
         [.stringLit "/api/users",
          .objectExpr [.objectProperty (.ident "method") (.stringLit "head")]],
         []⟩ "h.js" = some epC5 ∧
    ((epC5.method ∈ (["GET", "POST", "PUT", "PATCH", "DELETE"] : List String) ∨
      ∃ props v,
        (⟨.identifier "fetch",
          [.stringLit "/api/users",
           .objectExpr [.objectProperty (.ident "method") (.stringLit "head")]],
          []⟩ : CallSite).args.get? 1 = some (.objectExpr props) ∧
        findObjProp "method" props = some (.stringLit v) ∧
        epC5.method = jsToUpper v) ∧
    ((⟨.identifier "fetch",
       [.stringLit "/api/users",
        .objectExpr [.objectProperty (.ident "method") (.stringLit "head")]],
       []⟩ : CallSite).callee = .identifier "fetch" →
      (⟨.identifier "fetch",
        [.stringLit "/api/users",
         .objectExpr [.objectProperty (.ident "method") (.stringLit "head")]],
        []⟩ : CallSite).args.get? 1 = none →
      epC5.method = "GET")) :=
  ⟨rfl,
   c5_amended_methods
     ⟨.identifier "fetch",
      [.stringLit "/api/users",
       .objectExpr [.objectProperty (.ident "method") (.stringLit "head")]],
      []⟩ "h.js" epC5 rfl⟩

/-- C6 (amended): queryParams is exactly the list of keys of the literal
`?key=value&...` suffix of the raw URL, in order of appearance with
duplicates retained and empty keys dropped; a URL with no `?` yields the
empty list. -/
theorem c6_amended_query_keys (cs : CallSite) (f : String) (e : Endpoint)
    (h : processCallExpression cs f = some e) :
    e.queryParams = querySpecKeys e.path ∧
    (afterChar '?' e.path.data = none → e.queryParams = []) ∧
    ∀ k ∈ e.queryParams, k ≠ "" := by
  have hq : e.queryParams = extractQueryParamsFromUrl e.path := by
    rcases process_eq_some h with ⟨m, -, hb⟩ | ⟨-, -, hb⟩ <;>
      exact (buildEndpoint_fields hb).2.2.2.2.2
  refine ⟨by rw [hq]; rfl, ?_, ?_⟩
  · intro hnone
    rw [hq]
    unfold extractQueryParamsFromUrl
    rw [hnone]
  · intro k hk
    rw [hq] at hk
    unfold extractQueryParamsFromUrl at hk
    cases hac : afterChar '?' e.path.data with
    | none => rw [hac] at hk; simp at hk
    | some qs =>
      rw [hac] at hk
      simpa using (List.mem_filter.mp hk).2

/-- Counterexample to C6 as stated: the repeated key `tag` is NOT
de-duplicated — queryParams is `["tag", "tag"]`, not `["tag"]`. -/
theorem c6_query_keys_counterexample :
    analyzeFrontend "frontend" fsC6 = .ok [epC6] ∧
    epC6.queryParams = ["tag", "tag"] ∧
    epC6.queryParams ≠ ["tag"] :=
  ⟨rfl, by decide, by decide⟩

/-- Witness for the amended C6 at the concrete call site of `fsC6`. -/
theorem c6_amended_query_keys_witness :
    processCallExpression
        ⟨.identifier "fetch", [.stringLit "/api/items?tag=a&tag=b"], []⟩ "q.js"
      = some epC6 ∧
    (epC6.queryParams = querySpecKeys epC6.path ∧
      (afterChar '?' epC6.path.data = none → epC6.queryParams = []) ∧
      ∀ k ∈ epC6.queryParams, k ≠ "") :=
  ⟨rfl,
   c6_amended_query_keys
     ⟨.identifier "fetch", [.stringLit "/api/items?tag=a&tag=b"], []⟩ "q.js" epC6 rfl⟩

end Backlist
